import Mathlib

/-
Verification of the page-replacement simulator (src/main.py).

Pages are single-digit symbols in the source; they are modelled as natural
numbers, which preserves both equality and the order used by Python's max
over digit characters.  The mutable frame list of the source becomes a
`List (Option Frame)` (`None` slots are `none`), Python's `list.index` is
`pyIndex`, and a run that would raise an uncaught exception (IndexError /
ValueError on an empty frame table) is modelled as `none`.
-/

namespace VMSim

/-- A page-table entry of the counter-based LRU algorithm: the frame number
(the dict key "#") and the time-of-use tick (the dict key "TOU"). -/
structure Frame where
  num : Nat
  tou : Nat
deriving DecidableEq, Repr

/-- The loop state of one `counter_lru_page_replacement` invocation: the frame
table, the LRUClock tick, and the running page-fault count. -/
structure LruState where
  memory : List (Option Frame)
  tick : Nat
  faults : Nat
deriving DecidableEq, Repr

/-- Python's `list.index`: position of the first element equal to `x`. -/
def pyIndex [DecidableEq α] (x : α) : List α → Nat
  | [] => 0
  | y :: rest => if y = x then 0 else pyIndex x rest + 1

/-- The not-yet-full scan of `counter_lru_page_replacement`: walk the slots and
stop at the first `None` slot or the first slot holding page `c`, whichever
comes first (the `for f in memory` loop with its two `break`s). -/
def findNoneOrMatch (c : Nat) : List (Option Frame) → Option (Option Frame)
  | [] => none
  | none :: _ => some none
  | some f :: rest => if f.num = c then some (some f) else findNoneOrMatch c rest

/-- Whether some occupied slot of the frame table holds page `c`
(the scan computing `loaded` in the full-table branch). -/
def lruResident (memory : List (Option Frame)) (c : Nat) : Bool :=
  memory.any fun f? =>
    match f? with
    | some f => f.num == c
    | none => false

/-- The eviction scan's accumulator: `oldest_frame`, updated by
`if f["TOU"] < oldest_frame["TOU"]` (strict comparison, so the first minimum
encountered is kept). -/
def oldAux (acc : Frame) : List Frame → Frame
  | [] => acc
  | g :: rest => oldAux (if g.tou < acc.tou then g else acc) rest

/-- The eviction scan of `counter_lru_page_replacement`: the occupied slot
value with the least time-of-use, `none` on an empty table. -/
def oldestFrame : List Frame → Option Frame
  | [] => none
  | f :: rest => some (oldAux f rest)

/-- One iteration of the `for c in reference_string` loop of
`counter_lru_page_replacement`.  Returns `none` when the source would raise
(the `memory[0] = frame` IndexError on an empty frame table). -/
def lruStep (st : LruState) (c : Nat) : Option LruState :=
  let frame : Frame := ⟨c, st.tick⟩
  let tick := st.tick + 1
  if none ∈ st.memory then
    match findNoneOrMatch c st.memory with
    | some none =>
        some ⟨st.memory.set (pyIndex none st.memory) (some frame), tick, st.faults + 1⟩
    | some (some f) =>
        some ⟨st.memory.set (pyIndex (some f) st.memory) (some frame), tick, st.faults⟩
    | none => some ⟨st.memory, tick, st.faults⟩
  else
    if lruResident st.memory c then
      some ⟨st.memory.map (fun f? =>
        match f? with
        | some f => if f.num = c then some frame else some f
        | none => none), tick, st.faults⟩
    else
      match oldestFrame (st.memory.filterMap id) with
      | some old =>
          some ⟨st.memory.set (pyIndex (some old) st.memory) (some frame), tick, st.faults + 1⟩
      | none => none

/-- The whole reference loop of `counter_lru_page_replacement`. -/
def lruRun : LruState → List Nat → Option LruState
  | st, [] => some st
  | st, c :: rest =>
    match lruStep st c with
    | some st' => lruRun st' rest
    | none => none

/-- The initial state: `memory = [None] * memory_size`, tick 0, no faults. -/
def lruInit (memory_size : Nat) : LruState :=
  ⟨List.replicate memory_size none, 0, 0⟩

/-- `counter_lru_page_replacement` of src/main.py: the counter-based LRU
simulation, returning `(len(reference_string), memory_size, page_fault_count)`,
or `none` when the source raises. -/
def counter_lru_page_replacement (reference_string : List Nat) (memory_size : Nat) :
    Option (Nat × Nat × Nat) :=
  match lruRun (lruInit memory_size) reference_string with
  | some st => some (reference_string.length, memory_size, st.faults)
  | none => none

/-- The first half of OPT's replacement scan: the first slot (in slot order)
whose page does not occur in the remaining suffix (the `p not in reference_str`
branch with its `break`); a `None` slot would also be taken since `None` is not
a member of the suffix. -/
def findVictim (suffix : List Nat) : List (Option Nat) → Option (Option Nat)
  | [] => none
  | p? :: rest =>
    match p? with
    | some p => if p ∈ suffix then findVictim suffix rest else some (some p)
    | none => some none

/-- The `rank_dict` built by OPT when no resident page escapes the suffix:
each resident page paired with the position of its next occurrence. -/
def rankList (suffix : List Nat) (memory : List (Option Nat)) : List (Nat × Nat) :=
  memory.filterMap fun p? => p?.map fun p => (p, pyIndex p suffix)

/-- Python's `max(rank_dict)`: the maximum over the *keys* of the rank dict
(not over the rank values), `none` when the dict is empty (where the source
raises ValueError). -/
def maxKey : List (Nat × Nat) → Option Nat
  | [] => none
  | pr :: rest => some (rest.foldl (fun m q => max m q.1) pr.1)

/-- One iteration of the `for page in reference_str` loop of
`opt_page_replacement`; `suffix` is the already-sliced remainder
`reference_str[1:]`. -/
def optStep (memory : List (Option Nat)) (page : Nat) (suffix : List Nat) (faults : Nat) :
    Option (List (Option Nat) × Nat) :=
  if some page ∈ memory then
    some (memory, faults)
  else if none ∈ memory then
    some (memory.set (pyIndex none memory) (some page), faults + 1)
  else
    match findVictim suffix memory with
    | some victim =>
        some (memory.set (pyIndex victim memory) (some page), faults + 1)
    | none =>
        match maxKey (rankList suffix memory) with
        | some least_active =>
            some (memory.set (pyIndex (some least_active) memory) (some page), faults + 1)
        | none => none

/-- The whole reference loop of `opt_page_replacement`. -/
def optRun : List (Option Nat) → List Nat → Nat → Option (List (Option Nat) × Nat)
  | memory, [], faults => some (memory, faults)
  | memory, page :: rest, faults =>
    match optStep memory page rest faults with
    | some st => optRun st.1 rest st.2
    | none => none

/-- `opt_page_replacement` of src/main.py: the (identifier-maximising) OPT
simulation, returning `(len(unmodified_ref_str), memory_size, page_fault_count)`,
or `none` when the source raises. -/
def opt_page_replacement (reference_str : List Nat) (memory_size : Nat) :
    Option (Nat × Nat × Nat) :=
  match optRun (List.replicate memory_size none) reference_str 0 with
  | some st => some (reference_str.length, memory_size, st.2)
  | none => none

/-- Modelled from the spec: one step of the Stack-Based LRU algorithm of
spec section 4.2, which is described in the specification but has no
implementation under src/.  The recency list is kept least-recently-used
first; a hit moves the page to the most-recent end, a miss appends it,
evicting the least-recent element when the list is at capacity. -/
def stackStep (capacity : Nat) (st : List Nat × Nat) (r : Nat) : List Nat × Nat :=
  if r ∈ st.1 then (st.1.erase r ++ [r], st.2)
  else if st.1.length < capacity then (st.1 ++ [r], st.2 + 1)
  else (st.1.drop 1 ++ [r], st.2 + 1)

/-- Modelled from the spec: the Stack-Based LRU algorithm of spec section 4.2
(absent from src/), returning the same result-tuple shape as the other two
algorithms. -/
def stack_lru_page_replacement (sequence : List Nat) (capacity : Nat) : Nat × Nat × Nat :=
  (sequence.length, capacity, (sequence.foldl (stackStep capacity) ([], 0)).2)

/-- Ghost counter for claim C1: the number of references that are not resident
in the frame table at the moment they are processed, following the actual
state evolution of the counter-based LRU loop. -/
def lruGhostFaults : LruState → List Nat → Nat
  | _, [] => 0
  | st, c :: rest =>
    (if lruResident st.memory c then 0 else 1) +
    match lruStep st c with
    | some st' => lruGhostFaults st' rest
    | none => 0

/-- Number of occupied slots of a frame table. -/
def occupiedCount (m : List (Option Frame)) : Nat :=
  (m.filterMap id).length

/-- Abstraction relation between a counter-LRU state and a stack-LRU recency
list `L`: the occupied slots form a front segment `fr` of the table, some
reordering `fs` of `fr` lists the resident entries by strictly increasing
time of use, and `L` is the page sequence of `fs` (least recent first). -/
def WfAbs (cap : Nat) (st : LruState) (L : List Nat) : Prop :=
  ∃ fr fs : List Frame,
    st.memory = fr.map some ++ List.replicate (cap - fr.length) none ∧
    fr.length ≤ cap ∧
    fr.Perm fs ∧
    fs.map Frame.num = L ∧
    List.Pairwise (fun x y => x.tou < y.tou) fs ∧
    (∀ f ∈ fs, f.tou < st.tick) ∧
    (fs.map Frame.num).Nodup

theorem pyIndex_lt_length [DecidableEq α] {x : α} {l : List α} (h : x ∈ l) :
    pyIndex x l < l.length := by
  induction l with
  | nil => cases h
  | cons y rest ih =>
    simp only [pyIndex]
    split
    · simp
    · rename_i hne
      have hx : x ∈ rest := by
        rcases List.mem_cons.mp h with h' | h'
        · exact absurd h'.symm hne
        · exact h'
      simpa [Nat.succ_lt_succ_iff] using ih hx

theorem pyIndex_getElem? [DecidableEq α] {x : α} {l : List α} (h : x ∈ l) :
    l[pyIndex x l]? = some x := by
  induction l with
  | nil => cases h
  | cons y rest ih =>
    simp only [pyIndex]
    split
    · rename_i he; simp [he]
    · rename_i hne
      have hx : x ∈ rest := by
        rcases List.mem_cons.mp h with h' | h'
        · exact absurd h'.symm hne
        · exact h'
      simpa using ih hx

theorem pyIndex_map {f : α → β} [DecidableEq α] [DecidableEq β]
    (hf : ∀ a b, f a = f b → a = b) (x : α) (l : List α) :
    pyIndex (f x) (l.map f) = pyIndex x l := by
  induction l with
  | nil => rfl
  | cons y rest ih =>
    simp only [List.map_cons, pyIndex]
    by_cases h : y = x
    · simp [h]
    · have hfy : ¬(f y = f x) := fun hc => h (hf _ _ hc)
      simp [h, hfy, ih]

theorem pyIndex_append_first [DecidableEq α] {x : α} {a : List α} (b : List α) (h : x ∉ a) :
    pyIndex x (a ++ x :: b) = a.length := by
  induction a with
  | nil => simp [pyIndex]
  | cons y rest ih =>
    simp only [List.cons_append, pyIndex]
    have hy : ¬(y = x) := fun hc => h (hc ▸ List.mem_cons_self y rest)
    simp only [hy, if_false, List.length_cons]
    simpa using ih (fun hc => h (List.mem_cons_of_mem _ hc))

theorem set_append_of_lt {l₁ l₂ : List α} {i : Nat} (x : α) (h : i < l₁.length) :
    (l₁ ++ l₂).set i x = l₁.set i x ++ l₂ := by
  rw [List.set_append, if_pos h]

theorem set_append_len (l₁ : List α) (y x : α) (l₂ : List α) :
    (l₁ ++ y :: l₂).set l₁.length x = l₁ ++ x :: l₂ := by
  rw [List.set_append, if_neg (by omega)]
  simp

theorem filterMap_id_map_some (l : List α) : (l.map some).filterMap id = l := by
  induction l with
  | nil => rfl
  | cons x rest ih => simp [List.filterMap_cons, ih]

theorem oldAux_mem (acc : Frame) (l : List Frame) : oldAux acc l ∈ acc :: l := by
  induction l generalizing acc with
  | nil => simp [oldAux]
  | cons g rest ih =>
    simp only [oldAux]
    rcases List.mem_cons.mp (ih (if g.tou < acc.tou then g else acc)) with h' | h'
    · rw [h']
      split
      · exact List.mem_cons_of_mem _ (List.mem_cons_self _ _)
      · exact List.mem_cons_self _ _
    · exact List.mem_cons_of_mem _ (List.mem_cons_of_mem _ h')

theorem oldAux_tou_le (acc : Frame) (l : List Frame) :
    (oldAux acc l).tou ≤ acc.tou ∧ ∀ g ∈ l, (oldAux acc l).tou ≤ g.tou := by
  induction l generalizing acc with
  | nil => exact ⟨Nat.le_refl _, by simp⟩
  | cons g rest ih =>
    simp only [oldAux]
    obtain ⟨h1, h2⟩ := ih (if g.tou < acc.tou then g else acc)
    refine ⟨Nat.le_trans h1 (by split <;> omega), ?_⟩
    intro g' hg'
    rcases List.mem_cons.mp hg' with h' | h'
    · subst h'
      exact Nat.le_trans h1 (by split <;> omega)
    · exact h2 g' h'

theorem oldAux_stable (acc : Frame) (l : List Frame) (h : acc.tou ≤ (oldAux acc l).tou) :
    oldAux acc l = acc := by
  induction l generalizing acc with
  | nil => rfl
  | cons g rest ih =>
    simp only [oldAux] at h ⊢
    by_cases hg : g.tou < acc.tou
    · rw [if_pos hg] at h
      have := (oldAux_tou_le g rest).1
      omega
    · rw [if_neg hg] at h ⊢
      exact ih acc h

theorem pyIndex_cons_self [DecidableEq α] (x : α) (l : List α) :
    pyIndex x (x :: l) = 0 := by
  simp [pyIndex]

theorem pyIndex_cons_ne [DecidableEq α] {y x : α} (h : ¬(y = x)) (l : List α) :
    pyIndex x (y :: l) = pyIndex x l + 1 := by
  simp [pyIndex, h]

theorem oldAux_first_min (acc : Frame) (l : List Frame) (i : Nat) (f : Frame)
    (hslot : (acc :: l)[i]? = some f)
    (hmin : ∀ g ∈ acc :: l, f.tou ≤ g.tou)
    (hfirst : ∀ j, j < i → ∀ g, (acc :: l)[j]? = some g → f.tou < g.tou) :
    oldAux acc l = f ∧ pyIndex f (acc :: l) = i := by
  induction l generalizing acc i with
  | nil =>
    match i with
    | 0 =>
      simp only [List.getElem?_cons_zero] at hslot
      injection hslot with h
      subst h
      exact ⟨rfl, by simp [pyIndex]⟩
    | j + 1 =>
      rw [List.getElem?_cons_succ] at hslot
      simp at hslot
  | cons g rest ih =>
    match i with
    | 0 =>
      simp only [List.getElem?_cons_zero] at hslot
      injection hslot with h
      subst h
      refine ⟨oldAux_stable _ _ (hmin _ (oldAux_mem acc (g :: rest))), by simp [pyIndex]⟩
    | j + 1 =>
      have hfa : f.tou < acc.tou := hfirst 0 (Nat.succ_pos j) acc (by simp)
      rw [List.getElem?_cons_succ] at hslot
      have hag : ¬(acc = f) := fun he => by rw [he] at hfa; omega
      simp only [oldAux]
      by_cases hj0 : j = 0
      · subst hj0
        simp only [List.getElem?_cons_zero] at hslot
        injection hslot with h
        subst h
        have hcond : g.tou < acc.tou := hfa
        rw [if_pos hcond]
        obtain ⟨h1, h2⟩ := ih g 0 (by simp) (fun g' hg' => hmin g' (List.mem_cons_of_mem _ hg'))
          (fun j' hj' => by omega)
        exact ⟨h1, by simp [pyIndex, hag]⟩
      · obtain ⟨j', rfl⟩ : ∃ j', j = j' + 1 := ⟨j - 1, by omega⟩
        rw [List.getElem?_cons_succ] at hslot
        have hfg : f.tou < g.tou := hfirst 1 (by omega) g (by simp)
        have hgf : ¬(g = f) := fun he => by rw [he] at hfg; omega
        have hmain : ∀ acc'ty : Frame, acc'ty = g ∨ acc'ty = acc →
            oldAux acc'ty rest = f ∧ pyIndex f (acc'ty :: rest) = j' + 1 := by
          intro acc' hacc'
          have hacc'f : f.tou < acc'.tou := by rcases hacc' with h | h <;> rw [h] <;> assumption
          apply ih acc' (j' + 1)
          · rw [List.getElem?_cons_succ]; exact hslot
          · intro g' hg'
            rcases List.mem_cons.mp hg' with h | h
            · subst h; omega
            · exact hmin g' (List.mem_cons_of_mem _ (List.mem_cons_of_mem _ h))
          · intro j'' hj'' g' hg'
            match j'' with
            | 0 =>
              simp only [List.getElem?_cons_zero] at hg'
              injection hg' with h
              subst h; exact hacc'f
            | k + 1 =>
              rw [List.getElem?_cons_succ] at hg'
              exact hfirst (k + 2) (by omega) g' (by simpa using hg')
        by_cases hcond : g.tou < acc.tou
        · rw [if_pos hcond]
          obtain ⟨h1, h2⟩ := hmain g (Or.inl rfl)
          exact ⟨h1, by rw [pyIndex_cons_ne hag, h2]⟩
        · rw [if_neg hcond]
          obtain ⟨h1, h2⟩ := hmain acc (Or.inr rfl)
          rw [pyIndex_cons_ne hag] at h2
          exact ⟨h1, by rw [pyIndex_cons_ne hag, pyIndex_cons_ne hgf]; omega⟩

theorem pyIndex_decomp [DecidableEq α] {x : α} {l : List α} (h : x ∈ l) :
    ∃ a b, l = a ++ x :: b ∧ x ∉ a ∧ a.length = pyIndex x l := by
  induction l with
  | nil => cases h
  | cons y rest ih =>
    by_cases hy : y = x
    · exact ⟨[], rest, by simp [hy], by simp, by simp [pyIndex, hy]⟩
    · have hx : x ∈ rest := by
        rcases List.mem_cons.mp h with h' | h'
        · exact absurd h'.symm hy
        · exact h'
      obtain ⟨a, b, h1, h2, h3⟩ := ih hx
      refine ⟨y :: a, b, by rw [List.cons_append, h1], ?_, by simp [pyIndex, hy, h3]⟩
      intro hc
      rcases List.mem_cons.mp hc with h' | h'
      · exact hy h'.symm
      · exact h2 h'

theorem fnm_no_match {c : Nat} {fr : List Frame} (h : ∀ f ∈ fr, f.num ≠ c)
    (rest : List (Option Frame)) :
    findNoneOrMatch c (fr.map some ++ none :: rest) = some none := by
  induction fr with
  | nil => rfl
  | cons f fr' ih =>
    simp only [List.map_cons, List.cons_append, findNoneOrMatch]
    rw [if_neg (h f (List.mem_cons_self f fr'))]
    exact ih (fun g hg => h g (List.mem_cons_of_mem _ hg))

theorem fnm_match {c : Nat} {a : List Frame} (b : List Frame) {f₀ : Frame} (hnum : f₀.num = c)
    (ha : ∀ f ∈ a, f.num ≠ c) (rest : List (Option Frame)) :
    findNoneOrMatch c ((a ++ f₀ :: b).map some ++ rest) = some (some f₀) := by
  induction a with
  | nil => simp [findNoneOrMatch, hnum]
  | cons f a' ih =>
    simp only [List.cons_append, List.map_cons, findNoneOrMatch]
    rw [if_neg (ha f (List.mem_cons_self f a'))]
    exact ih (fun g hg => ha g (List.mem_cons_of_mem _ hg))

theorem exists_first_of_any {p : α → Bool} {l : List α} (h : l.any p = true) :
    ∃ a x b, l = a ++ x :: b ∧ p x = true ∧ ∀ y ∈ a, p y = false := by
  induction l with
  | nil => simp at h
  | cons y rest ih =>
    by_cases hy : p y = true
    · exact ⟨[], y, rest, rfl, hy, by simp⟩
    · have h' : rest.any p = true := by
        rcases List.any_eq_true.mp h with ⟨x, hx, hpx⟩
        rcases List.mem_cons.mp hx with h'' | h''
        · exact absurd (h'' ▸ hpx) hy
        · exact List.any_eq_true.mpr ⟨x, h'', hpx⟩
      obtain ⟨a, x, b, h1, h2, h3⟩ := ih h'
      refine ⟨y :: a, x, b, by rw [List.cons_append, h1], h2, ?_⟩
      intro z hz
      rcases List.mem_cons.mp hz with h'' | h''
      · subst h''; exact Bool.not_eq_true _ ▸ (by simpa using hy)
      · exact h3 z h''

theorem lruResident_iff {memory : List (Option Frame)} {c : Nat} :
    lruResident memory c = true ↔ ∃ f, some f ∈ memory ∧ f.num = c := by
  constructor
  · intro h
    rcases List.any_eq_true.mp h with ⟨f?, hmem, hp⟩
    cases f? with
    | none => simp at hp
    | some f => exact ⟨f, hmem, by simpa using hp⟩
  · rintro ⟨f, hf, hnum⟩
    exact List.any_eq_true.mpr ⟨some f, hf, by simpa using hnum⟩

theorem lruResident_shape {fr : List Frame} {m : Nat} {c : Nat} :
    lruResident (fr.map some ++ List.replicate m none) c = true ↔ ∃ f ∈ fr, f.num = c := by
  rw [lruResident_iff]
  constructor
  · rintro ⟨f, hf, hnum⟩
    rw [List.mem_append] at hf
    rcases hf with hf | hf
    · exact ⟨f, by simpa using hf, hnum⟩
    · rw [List.mem_replicate] at hf
      cases hf.2
  · rintro ⟨f, hf, hnum⟩
    exact ⟨f, List.mem_append.mpr (Or.inl (List.mem_map_of_mem some hf)), hnum⟩

theorem occupiedCount_shape (fr : List Frame) (m : Nat) :
    occupiedCount (fr.map some ++ List.replicate m none) = fr.length := by
  simp [occupiedCount, List.filterMap_append, filterMap_id_map_some, List.filterMap_replicate]

theorem wfabs_hit (cap tick faults : Nat) (L : List Nat) (c : Nat) (a b fs : List Frame)
    (f₀ : Frame)
    (hperm : (a ++ f₀ :: b).Perm fs) (hnum : f₀.num = c)
    (hmap : fs.map Frame.num = L) (hpw : List.Pairwise (fun x y => x.tou < y.tou) fs)
    (htou : ∀ f ∈ fs, f.tou < tick) (hnd : (fs.map Frame.num).Nodup)
    (hlen : (a ++ f₀ :: b).length ≤ cap) :
    WfAbs cap ⟨(a ++ (⟨c, tick⟩ : Frame) :: b).map some ++
        List.replicate (cap - (a ++ f₀ :: b).length) none, tick + 1, faults⟩
      (L.erase c ++ [c]) := by
  have hf₀fs : f₀ ∈ fs := hperm.mem_iff.mp (by simp)
  obtain ⟨u, v, rfl⟩ := List.append_of_mem hf₀fs
  have hndL : (c :: (u.map Frame.num ++ v.map Frame.num)).Nodup := by
    have h' : ((u ++ f₀ :: v).map Frame.num).Nodup := hnd
    rw [List.map_append, List.map_cons, hnum] at h'
    exact (List.nodup_middle).mp h'
  have hcnotm : c ∉ u.map Frame.num ++ v.map Frame.num := (List.nodup_cons.mp hndL).1
  have hcu : c ∉ u.map Frame.num := fun h => hcnotm (List.mem_append.mpr (Or.inl h))
  have hsubl : (u ++ v).Sublist (u ++ f₀ :: v) :=
    List.Sublist.append_left (List.sublist_cons_self f₀ v) u
  refine ⟨a ++ (⟨c, tick⟩ : Frame) :: b, (u ++ v) ++ [⟨c, tick⟩], by simp, by simpa using hlen,
    ?_, ?_, ?_, ?_, ?_⟩
  · have q1 : (a ++ f₀ :: b).Perm (f₀ :: (a ++ b)) := List.perm_middle
    have q2 : (u ++ f₀ :: v).Perm (f₀ :: (u ++ v)) := List.perm_middle
    have p2 : (a ++ b).Perm (u ++ v) := ((q1.symm.trans hperm).trans q2).cons_inv
    exact (List.perm_middle.trans (p2.cons _)).trans
      (List.perm_append_singleton _ _).symm
  · have hL : L = u.map Frame.num ++ c :: v.map Frame.num := by
      rw [← hmap, List.map_append, List.map_cons, hnum]
    rw [hL, List.erase_append_right _ hcu, List.erase_cons_head]
    simp
  · rw [List.pairwise_append]
    refine ⟨List.Pairwise.sublist hsubl hpw, by simp, ?_⟩
    intro x hx y hy
    rw [List.mem_singleton] at hy
    subst hy
    exact htou x (hsubl.mem hx)
  · intro f hf
    rw [List.mem_append, List.mem_singleton] at hf
    rcases hf with hf | hf
    · exact Nat.lt_succ_of_lt (htou f (hsubl.mem hf))
    · subst hf; exact Nat.lt_succ_self _
  · have heq : ((u ++ v) ++ [(⟨c, tick⟩ : Frame)]).map Frame.num =
        (u.map Frame.num ++ v.map Frame.num) ++ [c] := by simp
    rw [heq, List.nodup_append]
    refine ⟨(List.nodup_cons.mp hndL).2, by simp, ?_⟩
    intro x hx
    simp only [List.mem_singleton]
    intro hxc
    subst hxc
    exact hcnotm hx

theorem wfabs_grow (cap tick faults : Nat) (L : List Nat) (c : Nat) (fr fs : List Frame)
    (hperm : fr.Perm fs) (hmap : fs.map Frame.num = L)
    (hpw : List.Pairwise (fun x y => x.tou < y.tou) fs)
    (htou : ∀ f ∈ fs, f.tou < tick) (hnd : (fs.map Frame.num).Nodup)
    (hlen : fr.length < cap) (hc : c ∉ L) :
    WfAbs cap ⟨(fr ++ [(⟨c, tick⟩ : Frame)]).map some ++
        List.replicate (cap - (fr.length + 1)) none, tick + 1, faults⟩
      (L ++ [c]) := by
  refine ⟨fr ++ [⟨c, tick⟩], fs ++ [⟨c, tick⟩], by simp, by simp; omega,
    hperm.append_right _, by rw [List.map_append, hmap]; rfl, ?_, ?_, ?_⟩
  · rw [List.pairwise_append]
    refine ⟨hpw, by simp, ?_⟩
    intro x hx y hy
    rw [List.mem_singleton] at hy
    subst hy
    exact htou x hx
  · intro f hf
    rw [List.mem_append, List.mem_singleton] at hf
    rcases hf with hf | hf
    · exact Nat.lt_succ_of_lt (htou f hf)
    · subst hf; exact Nat.lt_succ_self _
  · rw [List.map_append, List.nodup_append]
    refine ⟨hnd, by simp, ?_⟩
    intro x hx
    simp only [List.map_cons, List.map_nil, List.mem_singleton]
    intro hxc
    subst hxc
    exact hc (hmap ▸ hx)

theorem wfabs_evict (cap tick faults : Nat) (L : List Nat) (c : Nat) (a b t : List Frame)
    (r : Frame)
    (hperm : (a ++ r :: b).Perm (r :: t)) (hmap : (r :: t).map Frame.num = L)
    (hpw : List.Pairwise (fun x y => x.tou < y.tou) (r :: t))
    (htou : ∀ f ∈ r :: t, f.tou < tick) (hnd : ((r :: t).map Frame.num).Nodup)
    (hlen : (a ++ r :: b).length ≤ cap) (hc : c ∉ L) :
    WfAbs cap ⟨(a ++ (⟨c, tick⟩ : Frame) :: b).map some ++
        List.replicate (cap - (a ++ r :: b).length) none, tick + 1, faults⟩
      (L.drop 1 ++ [c]) := by
  have p2 : (a ++ b).Perm t := by
    have q1 : (a ++ r :: b).Perm (r :: (a ++ b)) := List.perm_middle
    exact (q1.symm.trans hperm).cons_inv
  have htail : L.drop 1 = t.map Frame.num := by
    rw [← hmap, List.map_cons, List.drop_one, List.tail_cons]
  have hcmt : c ∉ t.map Frame.num := by
    intro hx
    exact hc (hmap ▸ List.mem_cons_of_mem _ hx)
  refine ⟨a ++ (⟨c, tick⟩ : Frame) :: b, t ++ [⟨c, tick⟩], by simp, by simpa using hlen,
    ?_, ?_, ?_, ?_, ?_⟩
  · exact (List.perm_middle.trans (p2.cons _)).trans (List.perm_append_singleton _ _).symm
  · rw [List.map_append, htail]; rfl
  · rw [List.pairwise_append]
    refine ⟨(List.pairwise_cons.mp hpw).2, by simp, ?_⟩
    intro x hx y hy
    rw [List.mem_singleton] at hy
    subst hy
    exact htou x (List.mem_cons_of_mem _ hx)
  · intro f hf
    rw [List.mem_append, List.mem_singleton] at hf
    rcases hf with hf | hf
    · exact Nat.lt_succ_of_lt (htou f (List.mem_cons_of_mem _ hf))
    · subst hf; exact Nat.lt_succ_self _
  · rw [List.map_append, List.nodup_append]
    have hndt : (t.map Frame.num).Nodup := by
      rw [List.map_cons] at hnd
      exact (List.nodup_cons.mp hnd).2
    refine ⟨hndt, by simp, ?_⟩
    intro x hx
    simp only [List.map_cons, List.map_nil, List.mem_singleton]
    intro hxc
    subst hxc
    exact hcmt hx

theorem none_mem_shape {fr : List Frame} {m : Nat} :
    ((none : Option Frame) ∈ fr.map some ++ List.replicate m none) ↔ 0 < m := by
  simp [List.mem_append, List.mem_replicate, Nat.pos_iff_ne_zero]

theorem lruStep_notfull_hit {mem : List (Option Frame)} {tk fl c : Nat} {f₀ : Frame}
    (hfull : none ∈ mem) (hf : findNoneOrMatch c mem = some (some f₀)) :
    lruStep ⟨mem, tk, fl⟩ c =
      some ⟨mem.set (pyIndex (some f₀) mem) (some ⟨c, tk⟩), tk + 1, fl⟩ := by
  simp only [lruStep, if_pos hfull, hf]

theorem lruStep_notfull_miss {mem : List (Option Frame)} {tk fl c : Nat}
    (hfull : none ∈ mem) (hf : findNoneOrMatch c mem = some none) :
    lruStep ⟨mem, tk, fl⟩ c =
      some ⟨mem.set (pyIndex none mem) (some ⟨c, tk⟩), tk + 1, fl + 1⟩ := by
  simp only [lruStep, if_pos hfull, hf]

theorem lruStep_full_hit {mem : List (Option Frame)} {tk fl c : Nat}
    (hfull : none ∉ mem) (hres : lruResident mem c = true) :
    lruStep ⟨mem, tk, fl⟩ c =
      some ⟨mem.map (fun f? =>
        match f? with
        | some f => if f.num = c then some ⟨c, tk⟩ else some f
        | none => none), tk + 1, fl⟩ := by
  simp only [lruStep, if_neg hfull, hres, if_true]

theorem lruStep_full_evict {mem : List (Option Frame)} {tk fl c : Nat} {old : Frame}
    (hfull : none ∉ mem) (hres : lruResident mem c = false)
    (hold : oldestFrame (mem.filterMap id) = some old) :
    lruStep ⟨mem, tk, fl⟩ c =
      some ⟨mem.set (pyIndex (some old) mem) (some ⟨c, tk⟩), tk + 1, fl + 1⟩ := by
  simp only [lruStep, if_neg hfull, hres, Bool.false_eq_true, if_false, hold]

theorem lruStep_full_empty {mem : List (Option Frame)} {tk fl c : Nat}
    (hfull : none ∉ mem) (hres : lruResident mem c = false)
    (hold : oldestFrame (mem.filterMap id) = none) :
    lruStep ⟨mem, tk, fl⟩ c = none := by
  simp only [lruStep, if_neg hfull, hres, Bool.false_eq_true, if_false, hold]

theorem stackStep_snd (cap : Nat) (L : List Nat) (f c : Nat) :
    (stackStep cap (L, f) c).2 = if c ∈ L then f else f + 1 := by
  by_cases h : c ∈ L
  · simp [stackStep, h]
  · by_cases h2 : L.length < cap <;> simp [stackStep, h, h2]

theorem lruStep_abs {cap : Nat} (hcap : 1 ≤ cap) {mem : List (Option Frame)} {tk fl : Nat}
    {L : List Nat} (c : Nat) (h : WfAbs cap ⟨mem, tk, fl⟩ L) :
    ∃ st', lruStep ⟨mem, tk, fl⟩ c = some st' ∧
      WfAbs cap st' (stackStep cap (L, fl) c).1 ∧
      st'.faults = (stackStep cap (L, fl) c).2 ∧
      st'.tick = tk + 1 ∧
      occupiedCount mem ≤ occupiedCount st'.memory ∧
      (lruResident mem c = true ↔ c ∈ L) := by
  obtain ⟨fr, fs, hmem, hlen, hperm, hmap, hpw, htou, hnd⟩ := h
  dsimp only at hmem htou
  subst hmem
  have hLlen : L.length = fr.length := by
    rw [← hmap, List.length_map, hperm.length_eq]
  have hfrnd : (fr.map Frame.num).Nodup := ((hperm.map Frame.num).nodup_iff).mpr hnd
  have hres_iff :
      lruResident (fr.map some ++ List.replicate (cap - fr.length) none) c = true ↔ c ∈ L := by
    rw [lruResident_shape, ← hmap]
    constructor
    · rintro ⟨f, hf, hnumf⟩
      exact hnumf ▸ List.mem_map_of_mem Frame.num (hperm.mem_iff.mp hf)
    · intro hcL
      rcases List.mem_map.mp hcL with ⟨f, hf, hnumf⟩
      exact ⟨f, hperm.mem_iff.mpr hf, hnumf⟩
  by_cases hres : lruResident (fr.map some ++ List.replicate (cap - fr.length) none) c = true
  case pos =>
    have hcL : c ∈ L := hres_iff.mp hres
    have hstack : stackStep cap (L, fl) c = (L.erase c ++ [c], fl) := by
      simp [stackStep, hcL]
    have hany : fr.any (fun f => f.num == c) = true := by
      rcases lruResident_shape.mp hres with ⟨f, hf, hnumf⟩
      exact List.any_eq_true.mpr ⟨f, hf, by simpa using hnumf⟩
    obtain ⟨a, f₀, b, hfr, hpf₀, hpa⟩ := exists_first_of_any hany
    have hnum : f₀.num = c := by simpa using hpf₀
    have hano : ∀ f ∈ a, f.num ≠ c := by
      intro f hf
      simpa using hpa f hf
    subst hfr
    by_cases hfull : (none : Option Frame) ∈
        (a ++ f₀ :: b).map some ++ List.replicate (cap - (a ++ f₀ :: b).length) none
    case pos =>
      have hfnm := fnm_match b hnum hano
        (List.replicate (cap - (a ++ f₀ :: b).length) none)
      have hshape : (a ++ f₀ :: b).map some ++
            List.replicate (cap - (a ++ f₀ :: b).length) none
          = a.map some ++ some f₀ ::
            (b.map some ++ List.replicate (cap - (a ++ f₀ :: b).length) none) := by
        simp
      have hf₀a : (some f₀ : Option Frame) ∉ a.map some := by
        intro hmem'
        rcases List.mem_map.mp hmem' with ⟨g, hg, hgeq⟩
        have hge : g = f₀ := by injection hgeq
        exact hano f₀ (hge ▸ hg) hnum
      have hidx : pyIndex (some f₀) ((a ++ f₀ :: b).map some ++
          List.replicate (cap - (a ++ f₀ :: b).length) none) = a.length := by
        rw [hshape, pyIndex_append_first _ hf₀a, List.length_map]
      have hset : ((a ++ f₀ :: b).map some ++
            List.replicate (cap - (a ++ f₀ :: b).length) none).set
            (pyIndex (some f₀) ((a ++ f₀ :: b).map some ++
              List.replicate (cap - (a ++ f₀ :: b).length) none))
            (some ⟨c, tk⟩)
          = (a ++ (⟨c, tk⟩ : Frame) :: b).map some ++
            List.replicate (cap - (a ++ f₀ :: b).length) none := by
        rw [hidx, hshape]
        have hs := set_append_len (a.map some) (some f₀) (some (⟨c, tk⟩ : Frame))
          (b.map some ++ List.replicate (cap - (a ++ f₀ :: b).length) none)
        rw [List.length_map] at hs
        rw [hs]
        simp
      refine ⟨_, lruStep_notfull_hit hfull hfnm, ?_, ?_, rfl, ?_, hres_iff⟩
      · rw [hstack]
        dsimp only
        rw [hset]
        exact wfabs_hit cap tk fl L c a b fs f₀ hperm hnum hmap hpw htou hnd hlen
      · rw [hstack]
      · dsimp only
        rw [hset, occupiedCount_shape, occupiedCount_shape]
        simp
    case neg =>
      have hb : ∀ f ∈ b, f.num ≠ c := by
        have h1 : ((a ++ f₀ :: b).map Frame.num).Nodup := hfrnd
        rw [List.map_append, List.map_cons, hnum] at h1
        have h2 := (List.nodup_middle).mp h1
        have h3 := (List.nodup_cons.mp h2).1
        intro f hf he
        exact h3 (List.mem_append.mpr (Or.inr (he ▸ List.mem_map_of_mem Frame.num hf)))
      have hmapped : ((a ++ f₀ :: b).map some ++
            List.replicate (cap - (a ++ f₀ :: b).length) none).map
            (fun f? : Option Frame =>
              match f? with
              | some f => if f.num = c then some (⟨c, tk⟩ : Frame) else some f
              | none => none)
          = (a ++ (⟨c, tk⟩ : Frame) :: b).map some ++
            List.replicate (cap - (a ++ f₀ :: b).length) none := by
        rw [List.map_append, List.map_replicate]
        congr 1
        rw [List.map_map, List.map_append, List.map_append, List.map_cons, List.map_cons]
        congr 1
        · refine List.map_congr_left (fun f hf => ?_)
          show (if f.num = c then some (⟨c, tk⟩ : Frame) else some f) = some f
          rw [if_neg (hano f hf)]
        · congr 1
          · show (if f₀.num = c then some (⟨c, tk⟩ : Frame) else some f₀) =
              some (⟨c, tk⟩ : Frame)
            rw [if_pos hnum]
          · refine List.map_congr_left (fun f hf => ?_)
            show (if f.num = c then some (⟨c, tk⟩ : Frame) else some f) = some f
            rw [if_neg (hb f hf)]
      refine ⟨_, lruStep_full_hit hfull hres, ?_, ?_, rfl, ?_, hres_iff⟩
      · rw [hstack]
        dsimp only
        rw [hmapped]
        exact wfabs_hit cap tk fl L c a b fs f₀ hperm hnum hmap hpw htou hnd hlen
      · rw [hstack]
      · dsimp only
        rw [hmapped, occupiedCount_shape, occupiedCount_shape]
        simp
  case neg =>
    have hresF : lruResident (fr.map some ++ List.replicate (cap - fr.length) none) c = false := by
      revert hres
      cases lruResident (fr.map some ++ List.replicate (cap - fr.length) none) c <;> simp
    have hcL : c ∉ L := fun hx => hres (hres_iff.mpr hx)
    have hno : ∀ f ∈ fr, f.num ≠ c := by
      intro f hf he
      exact hres (lruResident_shape.mpr ⟨f, hf, he⟩)
    by_cases hfull : (none : Option Frame) ∈
        fr.map some ++ List.replicate (cap - fr.length) none
    case pos =>
      have hm : 0 < cap - fr.length := none_mem_shape.mp hfull
      have hlt : fr.length < cap := by omega
      obtain ⟨m', hm'⟩ : ∃ m', cap - fr.length = m' + 1 := ⟨cap - fr.length - 1, by omega⟩
      have hrep : List.replicate (cap - fr.length) (none : Option Frame) =
          none :: List.replicate m' none := by
        rw [hm']
        rfl
      have hfnm : findNoneOrMatch c (fr.map some ++
          List.replicate (cap - fr.length) none) = some none := by
        rw [hrep]
        exact fnm_no_match hno _
      have hnonea : (none : Option Frame) ∉ fr.map some := by simp
      have hidx : pyIndex none (fr.map some ++ List.replicate (cap - fr.length) none)
          = fr.length := by
        rw [hrep, pyIndex_append_first _ hnonea, List.length_map]
      have hset : (fr.map some ++ List.replicate (cap - fr.length) none).set
            (pyIndex none (fr.map some ++ List.replicate (cap - fr.length) none))
            (some ⟨c, tk⟩)
          = (fr ++ [(⟨c, tk⟩ : Frame)]).map some ++
            List.replicate (cap - (fr.length + 1)) none := by
        rw [hidx, hrep]
        have hs := set_append_len (fr.map some) none (some (⟨c, tk⟩ : Frame))
          (List.replicate m' none)
        rw [List.length_map] at hs
        rw [hs]
        have hm'' : m' = cap - (fr.length + 1) := by omega
        simp [hm'']
      have hstack : stackStep cap (L, fl) c = (L ++ [c], fl + 1) := by
        have hllt : L.length < cap := by omega
        simp [stackStep, hcL, hllt]
      refine ⟨_, lruStep_notfull_miss hfull hfnm, ?_, ?_, rfl, ?_, hres_iff⟩
      · rw [hstack]
        dsimp only
        rw [hset]
        exact wfabs_grow cap tk fl L c fr fs hperm hmap hpw htou hnd hlt hcL
      · rw [hstack]
      · dsimp only
        rw [hset, occupiedCount_shape, occupiedCount_shape]
        simp
    case neg =>
      have hm0 : cap - fr.length = 0 := by
        by_contra hne
        exact hfull (none_mem_shape.mpr (by omega))
      have hfrcap : fr.length = cap := by omega
      have hfrne : fr ≠ [] := by
        intro he
        rw [he] at hfrcap
        simp at hfrcap
        omega
      obtain ⟨f₁, rest, hfr⟩ := List.exists_cons_of_ne_nil hfrne
      have hfsne : fs ≠ [] := by
        intro he
        rw [he] at hperm
        exact hfrne hperm.eq_nil
      obtain ⟨r, t, hfs⟩ := List.exists_cons_of_ne_nil hfsne
      subst hfs
      have hfm : (fr.map some ++ List.replicate (cap - fr.length) none).filterMap id = fr := by
        rw [hm0]
        simp [List.filterMap_append, filterMap_id_map_some]
      have hr₀mem : oldAux f₁ rest ∈ fr := by
        rw [hfr]
        exact oldAux_mem f₁ rest
      have hr₀min : ∀ g ∈ fr, (oldAux f₁ rest).tou ≤ g.tou := by
        intro g hg
        rw [hfr] at hg
        rcases List.mem_cons.mp hg with h' | h'
        · exact h' ▸ (oldAux_tou_le f₁ rest).1
        · exact (oldAux_tou_le f₁ rest).2 g h'
      have hrt : ∀ g ∈ t, r.tou < g.tou := (List.pairwise_cons.mp hpw).1
      have hr₀r : oldAux f₁ rest = r := by
        rcases List.mem_cons.mp (hperm.mem_iff.mp hr₀mem) with h' | h'
        · exact h'
        · have h1 := hrt _ h'
          have h2 := hr₀min r (hperm.mem_iff.mpr (List.mem_cons_self r t))
          omega
      have hold : oldestFrame ((fr.map some ++
          List.replicate (cap - fr.length) none).filterMap id) = some r := by
        rw [hfm, hfr]
        simp only [oldestFrame]
        rw [hr₀r]
      obtain ⟨a, b, hfr2, hna, hlena⟩ := pyIndex_decomp (hr₀r ▸ hr₀mem)
      subst hfr2
      have hsra : (some r : Option Frame) ∉ a.map some := by
        intro hmem'
        rcases List.mem_map.mp hmem' with ⟨g, hg, hgeq⟩
        have hgr : g = r := by injection hgeq
        exact hna (hgr ▸ hg)
      have hshape : (a ++ r :: b).map some ++
            List.replicate (cap - (a ++ r :: b).length) none
          = a.map some ++ some r ::
            (b.map some ++ List.replicate (cap - (a ++ r :: b).length) none) := by
        simp
      have hidx : pyIndex (some r) ((a ++ r :: b).map some ++
          List.replicate (cap - (a ++ r :: b).length) none) = a.length := by
        rw [hshape, pyIndex_append_first _ hsra, List.length_map]
      have hset : ((a ++ r :: b).map some ++
            List.replicate (cap - (a ++ r :: b).length) none).set
            (pyIndex (some r) ((a ++ r :: b).map some ++
              List.replicate (cap - (a ++ r :: b).length) none))
            (some ⟨c, tk⟩)
          = (a ++ (⟨c, tk⟩ : Frame) :: b).map some ++
            List.replicate (cap - (a ++ r :: b).length) none := by
        rw [hidx, hshape]
        have hs := set_append_len (a.map some) (some r) (some (⟨c, tk⟩ : Frame))
          (b.map some ++ List.replicate (cap - (a ++ r :: b).length) none)
        rw [List.length_map] at hs
        rw [hs]
        simp
      have hstack : stackStep cap (L, fl) c = (L.drop 1 ++ [c], fl + 1) := by
        have hnlt : ¬(L.length < cap) := by omega
        simp [stackStep, hcL, hnlt]
      refine ⟨_, lruStep_full_evict hfull hresF hold, ?_, ?_, rfl, ?_, hres_iff⟩
      · rw [hstack]
        dsimp only
        rw [hset]
        exact wfabs_evict cap tk fl L c a b t r hperm hmap hpw htou hnd hlen hcL
      · rw [hstack]
      · dsimp only
        rw [hset, occupiedCount_shape, occupiedCount_shape]
        simp

theorem wfabs_init (cap : Nat) : WfAbs cap ⟨List.replicate cap none, 0, 0⟩ [] :=
  ⟨[], [], by simp, by simp, List.Perm.refl [], rfl, List.Pairwise.nil, by simp, by simp⟩

theorem lruRun_abs {cap : Nat} (hcap : 1 ≤ cap) :
    ∀ (seq : List Nat) (mem : List (Option Frame)) (tk fl : Nat) (L : List Nat),
      WfAbs cap ⟨mem, tk, fl⟩ L →
      ∃ st', lruRun ⟨mem, tk, fl⟩ seq = some st' ∧
        WfAbs cap st' (seq.foldl (stackStep cap) (L, fl)).1 ∧
        st'.faults = (seq.foldl (stackStep cap) (L, fl)).2 ∧
        st'.faults = fl + lruGhostFaults ⟨mem, tk, fl⟩ seq := by
  intro seq
  induction seq with
  | nil =>
    intro mem tk fl L h
    exact ⟨⟨mem, tk, fl⟩, rfl, h, rfl, by simp [lruGhostFaults]⟩
  | cons c rest ih =>
    intro mem tk fl L h
    obtain ⟨st₁, hstep, hwf₁, hfa₁, htick₁, hocc₁, hresiff₁⟩ := lruStep_abs hcap c h
    obtain ⟨mem₁, tk₁, fl₁⟩ := st₁
    dsimp only at hfa₁ htick₁ hocc₁
    obtain ⟨st', hrun, hwf', hfold', hghost'⟩ :=
      ih mem₁ tk₁ fl₁ (stackStep cap (L, fl) c).1 hwf₁
    have hpair : ((stackStep cap (L, fl) c).1, fl₁) = stackStep cap (L, fl) c := by
      rw [hfa₁]
    refine ⟨st', ?_, ?_, ?_, ?_⟩
    · simp only [lruRun, hstep]
      exact hrun
    · rw [List.foldl_cons, ← hpair]
      exact hwf'
    · rw [List.foldl_cons, ← hpair]
      exact hfold'
    · have hgh : lruGhostFaults ⟨mem, tk, fl⟩ (c :: rest) =
          (if lruResident mem c then 0 else 1) + lruGhostFaults ⟨mem₁, tk₁, fl₁⟩ rest := by
        simp only [lruGhostFaults, hstep]
      rw [hgh, hghost']
      have hsnd := stackStep_snd cap L fl c
      rw [← hfa₁] at hsnd
      by_cases hcl : c ∈ L
      · have hlr : lruResident mem c = true := hresiff₁.mpr hcl
        rw [hlr, if_pos hcl] at *
        simp only [hlr, if_true]
        omega
      · have hlr : lruResident mem c = false := by
          cases hx : lruResident mem c
          · rfl
          · exact absurd (hresiff₁.mp hx) hcl
        rw [if_neg hcl] at hsnd
        simp only [hlr, Bool.false_eq_true, if_false]
        omega

theorem lruRun_append (st : LruState) (xs ys : List Nat) :
    lruRun st (xs ++ ys) =
      match lruRun st xs with
      | some st' => lruRun st' ys
      | none => none := by
  induction xs generalizing st with
  | nil => rfl
  | cons c rest ih =>
    simp only [List.cons_append, lruRun]
    cases lruStep st c with
    | none => rfl
    | some st₁ => exact ih st₁

theorem stack_faults_le (cap : Nat) :
    ∀ (seq : List Nat) (L : List Nat) (f : Nat),
      (seq.foldl (stackStep cap) (L, f)).2 ≤ f + seq.length := by
  intro seq
  induction seq with
  | nil => intro L f; simp
  | cons c rest ih =>
    intro L f
    rw [List.foldl_cons]
    have hsnd := stackStep_snd cap L f c
    have h1 : (stackStep cap (L, f) c).2 ≤ f + 1 := by
      rw [hsnd]
      split <;> omega
    have h2 := ih (stackStep cap (L, f) c).1 (stackStep cap (L, f) c).2
    rw [Prod.mk.eta] at h2
    simp only [List.length_cons]
    omega

theorem insert_erase_self {s : Finset Nat} {c : Nat} : insert c (s.erase c) = insert c s := by
  ext x
  simp only [Finset.mem_insert, Finset.mem_erase]
  constructor
  · rintro (rfl | ⟨hne, hx⟩)
    · exact Or.inl rfl
    · exact Or.inr hx
  · rintro (rfl | hx)
    · exact Or.inl rfl
    · by_cases hxc : x = c
      · exact Or.inl hxc
      · exact Or.inr ⟨hxc, hx⟩

theorem stack_faults_full_cap (cap : Nat) :
    ∀ (seq : List Nat) (L : List Nat) (f : Nat), L.Nodup →
      L.length + (seq.toFinset \ L.toFinset).card ≤ cap →
      (seq.foldl (stackStep cap) (L, f)).2 = f + (seq.toFinset \ L.toFinset).card := by
  intro seq
  induction seq with
  | nil =>
    intro L f _ _
    simp
  | cons c rest ih =>
    intro L f hnd hle
    rw [List.foldl_cons]
    by_cases hc : c ∈ L
    · have hstep : stackStep cap (L, f) c = (L.erase c ++ [c], f) := by
        simp [stackStep, hc]
      rw [hstep]
      have hLset : (L.erase c ++ [c]).toFinset = L.toFinset := by
        ext x
        simp only [List.toFinset_append, Finset.mem_union, List.mem_toFinset,
          hnd.mem_erase_iff, List.toFinset_cons, List.toFinset_nil, insert_emptyc_eq,
          Finset.mem_insert, Finset.not_mem_empty, Finset.mem_singleton, or_false]
        constructor
        · rintro (⟨hne, hx⟩ | rfl)
          · exact hx
          · exact hc
        · intro hx
          by_cases hxc : x = c
          · exact Or.inr hxc
          · exact Or.inl ⟨hxc, hx⟩
      have hnd' : (L.erase c ++ [c]).Nodup := by
        rw [List.nodup_append]
        refine ⟨hnd.erase c, by simp, ?_⟩
        intro x hx
        simp only [List.mem_singleton]
        intro hxc
        subst hxc
        exact ((hnd.mem_erase_iff).mp hx).1 rfl
      have hlen' : (L.erase c ++ [c]).length = L.length := by
        rw [List.length_append, List.length_erase_of_mem hc, List.length_cons,
          List.length_nil]
        have := List.length_pos_of_mem hc
        omega
      have hsds : (c :: rest).toFinset \ L.toFinset = rest.toFinset \ L.toFinset := by
        rw [List.toFinset_cons, Finset.insert_sdiff_of_mem _ (List.mem_toFinset.mpr hc)]
      rw [hsds] at hle ⊢
      rw [ih (L.erase c ++ [c]) f hnd' (by rw [hLset, hlen']; exact hle), hLset]
    · have hcset : c ∉ L.toFinset := fun hx => hc (List.mem_toFinset.mp hx)
      have hpos : 0 < ((c :: rest).toFinset \ L.toFinset).card := by
        refine Finset.card_pos.mpr ⟨c, ?_⟩
        simp [hcset]
      have hlt : L.length < cap := by omega
      have hstep : stackStep cap (L, f) c = (L ++ [c], f + 1) := by
        simp [stackStep, hc, hlt]
      rw [hstep]
      have hnd' : (L ++ [c]).Nodup := by
        rw [List.nodup_append]
        refine ⟨hnd, by simp, ?_⟩
        intro x hx
        simp only [List.mem_singleton]
        intro hxc
        subst hxc
        exact hc hx
      have hset' : (L ++ [c]).toFinset = insert c L.toFinset := by
        ext x
        simp only [List.toFinset_append, Finset.mem_union, List.mem_toFinset,
          List.toFinset_cons, List.toFinset_nil, insert_emptyc_eq, Finset.mem_insert,
          Finset.not_mem_empty, Finset.mem_singleton, or_false]
        constructor
        · rintro (hx | rfl)
          · exact Or.inr hx
          · exact Or.inl rfl
        · rintro (rfl | hx)
          · exact Or.inr rfl
          · exact Or.inl hx
      have hcard : ((c :: rest).toFinset \ L.toFinset).card
          = (rest.toFinset \ (L ++ [c]).toFinset).card + 1 := by
        rw [hset', Finset.sdiff_insert, List.toFinset_cons,
          Finset.insert_sdiff_of_not_mem _ hcset]
        rw [← insert_erase_self]
        rw [Finset.card_insert_of_not_mem (Finset.not_mem_erase _ _)]
      have hlen'' : (L ++ [c]).length = L.length + 1 := by simp
      have hrec := ih (L ++ [c]) (f + 1) hnd' (by omega)
      rw [hrec]
      omega

theorem eq_map_some_of_no_none {m : List (Option α)} (h : (none : Option α) ∉ m) :
    m = (m.filterMap id).map some := by
  induction m with
  | nil => rfl
  | cons x rest ih =>
    cases x with
    | none => exact absurd (List.mem_cons_self _ _) h
    | some f =>
      have hf : (some f :: rest).filterMap id = f :: rest.filterMap id := by
        simp [List.filterMap_cons]
      rw [hf, List.map_cons, ← ih (fun hn => h (List.mem_cons_of_mem _ hn))]

theorem getD_shape_occ {fr : List Frame} {m j : Nat} (h : j < fr.length) :
    (fr.map some ++ List.replicate m none).getD j none ≠ none := by
  rw [List.getD_eq_getElem?_getD, List.getElem?_append_left (by simpa using h),
    List.getElem?_map, List.getElem?_eq_getElem h]
  simp

theorem getD_shape_empty {fr : List Frame} {m j : Nat} (h : fr.length ≤ j) :
    (fr.map some ++ List.replicate m none).getD j none = none := by
  rw [List.getD_eq_getElem?_getD, List.getElem?_append_right (by simpa using h),
    List.getElem?_replicate]
  split <;> rfl

/-- C1: with capacity at least 1, the counter-based LRU fault count equals the
number of references that are not resident in the frame table at the moment
they are processed: a resident reference never increments the counter, a
non-resident one increments it exactly once. -/
theorem lru_fault_count_is_nonresident_count (sequence : List Nat) (capacity : Nat)
    (hcap : 1 ≤ capacity) :
    counter_lru_page_replacement sequence capacity =
      some (sequence.length, capacity, lruGhostFaults (lruInit capacity) sequence) := by
  obtain ⟨st', hrun, _, _, hghost⟩ :=
    lruRun_abs hcap sequence (List.replicate capacity none) 0 0 [] (wfabs_init capacity)
  simp only [counter_lru_page_replacement, lruInit, hrun]
  rw [hghost]
  simp [lruInit]

theorem lru_fault_count_is_nonresident_count_witness :
    counter_lru_page_replacement [0, 1, 0] 2 =
      some (3, 2, lruGhostFaults (lruInit 2) [0, 1, 0]) :=
  lru_fault_count_is_nonresident_count [0, 1, 0] 2 (by decide)

/-- C3: for every reference sequence and every capacity at least 1, the
recency-counter LRU algorithm of the source and the stack-based LRU algorithm
described by the specification return identical result tuples, in particular
identical fault counts. -/
theorem recency_counter_lru_eq_stack_lru (sequence : List Nat) (capacity : Nat)
    (hcap : 1 ≤ capacity) :
    counter_lru_page_replacement sequence capacity =
      some (stack_lru_page_replacement sequence capacity) := by
  obtain ⟨st', hrun, _, hfold, _⟩ :=
    lruRun_abs hcap sequence (List.replicate capacity none) 0 0 [] (wfabs_init capacity)
  simp only [counter_lru_page_replacement, lruInit, hrun, stack_lru_page_replacement]
  rw [hfold]

theorem recency_counter_lru_eq_stack_lru_witness :
    counter_lru_page_replacement [7, 0, 1, 2, 0, 3, 0, 4, 2, 3, 0, 3, 2, 1, 2, 0, 1, 7, 0, 1] 3 =
      some (stack_lru_page_replacement
        [7, 0, 1, 2, 0, 3, 0, 4, 2, 3, 0, 3, 2, 1, 2, 0, 1, 7, 0, 1] 3) :=
  recency_counter_lru_eq_stack_lru _ 3 (by decide)

/-- C8: when the capacity is at least the number of distinct pages of the
sequence, the counter-based LRU fault count equals the number of distinct
pages (each page faults exactly once, at its first occurrence; repeats never
fault). -/
theorem lru_faults_eq_distinct_count (sequence : List Nat) (capacity : Nat)
    (hcap : sequence.dedup.length ≤ capacity) :
    counter_lru_page_replacement sequence capacity =
      some (sequence.length, capacity, sequence.dedup.length) := by
  by_cases hc1 : 1 ≤ capacity
  · obtain ⟨st', hrun, _, hfold, _⟩ :=
      lruRun_abs hc1 sequence (List.replicate capacity none) 0 0 [] (wfabs_init capacity)
    simp only [counter_lru_page_replacement, lruInit, hrun]
    rw [hfold]
    have hcard : (sequence.toFinset \ ([] : List Nat).toFinset).card =
        sequence.dedup.length := by
      simp [List.card_toFinset]
    have hfull := stack_faults_full_cap capacity sequence [] 0 (by simp)
      (by rw [List.length_nil, Nat.zero_add, hcard]; exact hcap)
    rw [hfull, hcard]
    simp
  · have hc0 : capacity = 0 := by omega
    have hseq : sequence = [] := by
      have hl0 : sequence.dedup.length = 0 := by omega
      exact (List.dedup_eq_nil sequence).mp (List.length_eq_zero.mp hl0)
    subst hseq
    subst hc0
    rfl

theorem lru_faults_eq_distinct_count_witness :
    counter_lru_page_replacement [4, 2, 4, 2, 7] 3 = some (5, 3, [4, 2, 4, 2, 7].dedup.length) :=
  lru_faults_eq_distinct_count [4, 2, 4, 2, 7] 3 (by decide)

/-- C9: with capacity at least 1, after any number of processed references the
occupied slots of the counter-LRU frame table form a contiguous front segment
(no empty slot precedes an occupied one), and a slot that is occupied stays
occupied after the next reference is processed. -/
theorem lru_occupied_slots_contiguous (sequence : List Nat) (capacity : Nat)
    (hcap : 1 ≤ capacity) (i : Nat) (hi : i ≤ sequence.length) :
    ∃ st st', lruRun (lruInit capacity) (sequence.take i) = some st ∧
      lruRun (lruInit capacity) (sequence.take (i + 1)) = some st' ∧
      (∀ j k, j ≤ k → st.memory.getD j none = none → st.memory.getD k none = none) ∧
      (∀ j, st.memory.getD j none ≠ none → st'.memory.getD j none ≠ none) := by
  obtain ⟨st, hrun, hwf, _, _⟩ :=
    lruRun_abs hcap (sequence.take i) (List.replicate capacity none) 0 0 []
      (wfabs_init capacity)
  have hrunI : lruRun (lruInit capacity) (sequence.take i) = some st := hrun
  by_cases hilt : i < sequence.length
  · obtain ⟨st₁, hstep, hwf₁, _, _, hocc₁, _⟩ := lruStep_abs hcap (sequence.getD i 0) hwf
    have hgi : sequence[i]? = some (sequence.getD i 0) := by
      rw [List.getD_eq_getElem?_getD, List.getElem?_eq_getElem hilt]
      rfl
    have htake : sequence.take (i + 1) = sequence.take i ++ [sequence.getD i 0] := by
      rw [List.take_succ, hgi]
      rfl
    have hstep' : lruStep st (sequence.getD i 0) = some st₁ := hstep
    have hrun' : lruRun (lruInit capacity) (sequence.take (i + 1)) = some st₁ := by
      rw [htake, lruRun_append, hrunI]
      simp only [lruRun, hstep']
    obtain ⟨fr, fs, hmem, hlen, hperm, hmap, hpw, htou, hnd⟩ := hwf
    obtain ⟨fr', fs', hmem', hlen', hperm', hmap', hpw', htou', hnd'⟩ := hwf₁
    have hcontig : ∀ j k, j ≤ k → st.memory.getD j none = none →
        st.memory.getD k none = none := by
      intro j k hjk hj
      rw [hmem] at hj ⊢
      by_cases hjlt : j < fr.length
      · exact absurd hj (getD_shape_occ hjlt)
      · exact getD_shape_empty (by omega)
    refine ⟨st, st₁, hrunI, hrun', hcontig, ?_⟩
    intro j hj
    rw [hmem] at hj
    have hjlt : j < fr.length := by
      by_contra hge
      exact hj (getD_shape_empty (by omega))
    have hcnt : fr.length ≤ fr'.length := by
      rw [hmem, hmem'] at hocc₁
      rw [occupiedCount_shape, occupiedCount_shape] at hocc₁
      exact hocc₁
    rw [hmem']
    exact getD_shape_occ (by omega)
  · have hile : sequence.length ≤ i := by omega
    have htake1 : sequence.take (i + 1) = sequence.take i := by
      rw [List.take_of_length_le hile, List.take_of_length_le (by omega)]
    obtain ⟨fr, fs, hmem, hlen, hperm, hmap, hpw, htou, hnd⟩ := hwf
    have hcontig : ∀ j k, j ≤ k → st.memory.getD j none = none →
        st.memory.getD k none = none := by
      intro j k hjk hj
      rw [hmem] at hj ⊢
      by_cases hjlt : j < fr.length
      · exact absurd hj (getD_shape_occ hjlt)
      · exact getD_shape_empty (by omega)
    exact ⟨st, st, hrunI, by rw [htake1]; exact hrunI, hcontig, fun j hj => hj⟩

theorem lru_occupied_slots_contiguous_witness :
    ∃ st st', lruRun (lruInit 2) ([0, 1, 0].take 1) = some st ∧
      lruRun (lruInit 2) ([0, 1, 0].take 2) = some st' ∧
      (∀ j k, j ≤ k → st.memory.getD j none = none → st.memory.getD k none = none) ∧
      (∀ j, st.memory.getD j none ≠ none → st'.memory.getD j none ≠ none) :=
  lru_occupied_slots_contiguous [0, 1, 0] 2 (by decide) 1 (by decide)

/-- C4: when the frame table is full and the referenced page is not resident,
the counter-based LRU step overwrites exactly the slot holding the minimum
time-of-use; on ties the first such slot in scan order is the one overwritten. -/
theorem lru_evicts_first_min_tick (st : LruState) (c : Nat) (i : Nat) (f : Frame)
    (hfull : (none : Option Frame) ∉ st.memory)
    (hmiss : lruResident st.memory c = false)
    (hslot : st.memory[i]? = some (some f))
    (hmin : ∀ (j : Nat) (g : Frame), st.memory[j]? = some (some g) → f.tou ≤ g.tou)
    (hfirst : ∀ j, j < i → ∀ (g : Frame), st.memory[j]? = some (some g) → f.tou < g.tou) :
    lruStep st c = some ⟨st.memory.set i (some ⟨c, st.tick⟩), st.tick + 1, st.faults + 1⟩ := by
  obtain ⟨fr, hfr⟩ : ∃ fr : List Frame, st.memory = fr.map some :=
    ⟨_, eq_map_some_of_no_none hfull⟩
  have hslot' : fr[i]? = some f := by
    rw [hfr, List.getElem?_map] at hslot
    rcases Option.map_eq_some'.mp hslot with ⟨g, hg, hge⟩
    have hgf : g = f := by injection hge
    rw [← hgf]
    exact hg
  have hfrne : fr ≠ [] := by
    intro h0
    rw [h0] at hslot'
    simp at hslot'
  obtain ⟨f₁, rest, hfr1⟩ := List.exists_cons_of_ne_nil hfrne
  have hmin' : ∀ g ∈ fr, f.tou ≤ g.tou := by
    intro g hg
    obtain ⟨n, hn⟩ := List.getElem?_of_mem hg
    exact hmin n g (by rw [hfr, List.getElem?_map, hn]; rfl)
  have hfirst' : ∀ j, j < i → ∀ g, fr[j]? = some g → f.tou < g.tou := by
    intro j hj g hgj
    exact hfirst j hj g (by rw [hfr, List.getElem?_map, hgj]; rfl)
  have hkey := oldAux_first_min f₁ rest i f (hfr1 ▸ hslot')
    (fun g hg => hmin' g (hfr1 ▸ hg))
    (fun j hj g hgj => hfirst' j hj g (hfr1 ▸ hgj))
  have hold : oldestFrame (st.memory.filterMap id) = some f := by
    have hfm : st.memory.filterMap id = fr := by
      rw [hfr, filterMap_id_map_some]
    rw [hfm, hfr1]
    simp only [oldestFrame]
    rw [hkey.1]
  have hidx : pyIndex (some f) st.memory = i := by
    rw [hfr, pyIndex_map (fun a b hab => by injection hab) f fr, hfr1, hkey.2]
  have hstep := @lruStep_full_evict st.memory st.tick st.faults c f hfull hmiss hold
  rw [hidx] at hstep
  exact hstep

theorem lru_evicts_first_min_tick_witness :
    lruStep ⟨[some ⟨5, 0⟩, some ⟨6, 1⟩], 7, 3⟩ 9 =
      some ⟨([some ⟨5, 0⟩, some ⟨6, 1⟩] : List (Option Frame)).set 0 (some ⟨9, 7⟩), 8, 4⟩ :=
  lru_evicts_first_min_tick ⟨[some ⟨5, 0⟩, some ⟨6, 1⟩], 7, 3⟩ 9 0 ⟨5, 0⟩
    (by decide) (by decide) (by decide)
    (fun j (g : Frame) _ => Nat.zero_le g.tou)
    (fun j hj => absurd hj (Nat.not_lt_zero j))

theorem optStep_hit {memory : List (Option Nat)} {page : Nat} {suffix : List Nat}
    {faults : Nat} (h : some page ∈ memory) :
    optStep memory page suffix faults = some (memory, faults) := by
  simp only [optStep, if_pos h]

theorem optStep_free {memory : List (Option Nat)} {page : Nat} {suffix : List Nat}
    {faults : Nat} (h1 : some page ∉ memory) (h2 : (none : Option Nat) ∈ memory) :
    optStep memory page suffix faults =
      some (memory.set (pyIndex none memory) (some page), faults + 1) := by
  simp only [optStep, if_neg h1, if_pos h2]

theorem optStep_victim {memory : List (Option Nat)} {page : Nat} {suffix : List Nat}
    {faults : Nat} {victim : Option Nat}
    (h1 : some page ∉ memory) (h2 : (none : Option Nat) ∉ memory)
    (hv : findVictim suffix memory = some victim) :
    optStep memory page suffix faults =
      some (memory.set (pyIndex victim memory) (some page), faults + 1) := by
  simp only [optStep, if_neg h1, if_neg h2, hv]

theorem optStep_rank {memory : List (Option Nat)} {page : Nat} {suffix : List Nat}
    {faults : Nat} {m : Nat}
    (h1 : some page ∉ memory) (h2 : (none : Option Nat) ∉ memory)
    (hv : findVictim suffix memory = none)
    (hm : maxKey (rankList suffix memory) = some m) :
    optStep memory page suffix faults =
      some (memory.set (pyIndex (some m) memory) (some page), faults + 1) := by
  simp only [optStep, if_neg h1, if_neg h2, hv, hm]

theorem findVictim_first {suffix : List Nat} :
    ∀ (memory : List (Option Nat)) (i : Nat) (p : Nat),
      (none : Option Nat) ∉ memory →
      memory[i]? = some (some p) → p ∉ suffix →
      (∀ j, j < i → ∀ (q : Nat), memory[j]? = some (some q) → q ∈ suffix) →
      findVictim suffix memory = some (some p) ∧ pyIndex (some p) memory = i := by
  intro memory
  induction memory with
  | nil =>
    intro i p _ hslot _ _
    simp at hslot
  | cons x rest ih =>
    intro i p hnone hslot hp hbefore
    match i with
    | 0 =>
      rw [List.getElem?_cons_zero] at hslot
      injection hslot with hx
      subst hx
      constructor
      · simp only [findVictim]
        rw [if_neg hp]
      · exact pyIndex_cons_self _ _
    | j + 1 =>
      rw [List.getElem?_cons_succ] at hslot
      have hxnone : x ≠ none := fun he => hnone (he ▸ List.mem_cons_self x rest)
      obtain ⟨q, rfl⟩ : ∃ q, x = some q := by
        cases x with
        | none => exact absurd rfl hxnone
        | some q => exact ⟨q, rfl⟩
      have hqs : q ∈ suffix := hbefore 0 (Nat.succ_pos j) q (by simp)
      have hrest := ih j p (fun hn => hnone (List.mem_cons_of_mem _ hn)) hslot hp
        (fun j' hj' q' hq' => hbefore (j' + 1) (by omega) q' (by simpa using hq'))
      constructor
      · simp only [findVictim]
        rw [if_pos hqs]
        exact hrest.1
      · have hne : ¬(some q = some p) := by
          intro he
          injection he with he'
          subst he'
          exact hp hqs
        rw [pyIndex_cons_ne hne, hrest.2]

theorem findVictim_none_sound {suffix : List Nat} :
    ∀ {memory : List (Option Nat)}, findVictim suffix memory = none →
      ∀ x ∈ memory, ∃ q, x = some q ∧ q ∈ suffix := by
  intro memory
  induction memory with
  | nil =>
    intro _ x hx
    cases hx
  | cons y rest ih =>
    intro h x hx
    cases y with
    | none => simp [findVictim] at h
    | some q =>
      simp only [findVictim] at h
      by_cases hq : q ∈ suffix
      · rw [if_pos hq] at h
        rcases List.mem_cons.mp hx with rfl | hx'
        · exact ⟨q, rfl, hq⟩
        · exact ih h x hx'
      · rw [if_neg hq] at h
        cases h

theorem findVictim_none_of_all {suffix : List Nat} :
    ∀ {memory : List (Option Nat)},
      (∀ x ∈ memory, ∃ q, x = some q ∧ q ∈ suffix) → findVictim suffix memory = none := by
  intro memory
  induction memory with
  | nil => intro _; rfl
  | cons y rest ih =>
    intro h
    obtain ⟨q, rfl, hq⟩ := h y (List.mem_cons_self y rest)
    simp only [findVictim]
    rw [if_pos hq]
    exact ih (fun x hx => h x (List.mem_cons_of_mem _ hx))

theorem foldl_maxKey_spec (l : List (Nat × Nat)) :
    ∀ acc : Nat, (acc ≤ l.foldl (fun m q => max m q.1) acc) ∧
      (∀ pr ∈ l, pr.1 ≤ l.foldl (fun m q => max m q.1) acc) ∧
      (l.foldl (fun m q => max m q.1) acc = acc ∨
        ∃ pr ∈ l, l.foldl (fun m q => max m q.1) acc = pr.1) := by
  induction l with
  | nil =>
    intro acc
    exact ⟨Nat.le_refl _, by simp, Or.inl rfl⟩
  | cons pr rest ih =>
    intro acc
    simp only [List.foldl_cons]
    obtain ⟨h1, h2, h8⟩ := ih (max acc pr.1)
    refine ⟨Nat.le_trans (Nat.le_max_left _ _) h1, ?_, ?_⟩
    · intro pr' hpr'
      rcases List.mem_cons.mp hpr' with rfl | h'
      · exact Nat.le_trans (Nat.le_max_right _ _) h1
      · exact h2 pr' h'
    · rcases h8 with h' | ⟨pr', hm, he⟩
      · rcases max_choice acc pr.1 with hh | hh
        · exact Or.inl (h'.trans hh)
        · exact Or.inr ⟨pr, List.mem_cons_self _ _, h'.trans hh⟩
      · exact Or.inr ⟨pr', List.mem_cons_of_mem _ hm, he⟩

theorem maxKey_spec {l : List (Nat × Nat)} {m : Nat} (h : maxKey l = some m) :
    (∃ pr ∈ l, pr.1 = m) ∧ ∀ pr ∈ l, pr.1 ≤ m := by
  cases l with
  | nil => simp [maxKey] at h
  | cons pr rest =>
    simp only [maxKey] at h
    injection h with h'
    subst h'
    obtain ⟨h1, h2, h8⟩ := foldl_maxKey_spec rest pr.1
    constructor
    · rcases h8 with h' | ⟨pr', hm, he⟩
      · exact ⟨pr, List.mem_cons_self _ _, h'.symm⟩
      · exact ⟨pr', List.mem_cons_of_mem _ hm, he.symm⟩
    · intro pr' hpr'
      rcases List.mem_cons.mp hpr' with rfl | h'
      · exact h1
      · exact h2 pr' h'

theorem mem_keys_rankList {suffix : List Nat} {memory : List (Option Nat)}
    {pr : Nat × Nat} (h : pr ∈ rankList suffix memory) : some pr.1 ∈ memory := by
  rcases List.mem_filterMap.mp h with ⟨p?, hmem, hp⟩
  cases p? with
  | none => simp at hp
  | some q =>
    have hq : q = pr.1 := by
      simp only [Option.map_some'] at hp
      injection hp with hp'
      rw [← hp']
    rw [← hq]
    exact hmem

theorem rankList_mem_of {suffix : List Nat} {memory : List (Option Nat)} {q : Nat}
    (h : some q ∈ memory) : (q, pyIndex q suffix) ∈ rankList suffix memory :=
  List.mem_filterMap.mpr ⟨some q, h, rfl⟩

/-- C5: when the OPT table is full, the referenced page is absent, and the
slot at index `i` is the first one (in slot-scan order) whose resident page
does not occur in the remaining suffix, the OPT step overwrites exactly that
slot; no ranking of the other residents is consulted. -/
theorem opt_evicts_first_never_reused (memory : List (Option Nat)) (page : Nat)
    (suffix : List Nat) (faults : Nat) (i : Nat) (p : Nat)
    (hmiss : some page ∉ memory) (hfull : (none : Option Nat) ∉ memory)
    (hslot : memory[i]? = some (some p)) (hp : p ∉ suffix)
    (hbefore : ∀ j, j < i → ∀ (q : Nat), memory[j]? = some (some q) → q ∈ suffix) :
    optStep memory page suffix faults =
      some (memory.set i (some page), faults + 1) := by
  obtain ⟨hv, hidx⟩ := findVictim_first memory i p hfull hslot hp hbefore
  rw [optStep_victim hmiss hfull hv, hidx]

theorem opt_evicts_first_never_reused_witness :
    optStep [some 0, some 1] 2 [1] 0 =
      some (([some 0, some 1] : List (Option Nat)).set 0 (some 2), 0 + 1) :=
  opt_evicts_first_never_reused [some 0, some 1] 2 [1] 0 0 0
    (by decide) (by decide) (by decide) (by decide)
    (fun j hj => absurd hj (Nat.not_lt_zero j))

/-- C6: when the OPT table is full, the referenced page is absent, and every
resident page occurs in the remaining suffix, the OPT step evicts the resident
page with the numerically largest page identifier (selection over the rank
dict's keys, not over the next-use distances). -/
theorem opt_evicts_largest_identifier (memory : List (Option Nat)) (page : Nat)
    (suffix : List Nat) (faults : Nat)
    (hmiss : some page ∉ memory) (hfull : (none : Option Nat) ∉ memory)
    (hne : memory ≠ []) (hall : ∀ q : Nat, some q ∈ memory → q ∈ suffix) :
    ∃ m, some m ∈ memory ∧ (∀ q : Nat, some q ∈ memory → q ≤ m) ∧
      optStep memory page suffix faults =
        some (memory.set (pyIndex (some m) memory) (some page), faults + 1) := by
  have hv : findVictim suffix memory = none := by
    apply findVictim_none_of_all
    intro x hx
    cases x with
    | none => exact absurd hx hfull
    | some q => exact ⟨q, rfl, hall q hx⟩
  obtain ⟨x, xs, hmem⟩ := List.exists_cons_of_ne_nil hne
  have hxmem : x ∈ memory := hmem ▸ List.mem_cons_self x xs
  obtain ⟨q, rfl⟩ : ∃ q, x = some q := by
    cases x with
    | none => exact absurd hxmem hfull
    | some q => exact ⟨q, rfl⟩
  have hrne : rankList suffix memory ≠ [] := by
    intro hemp
    have hmm : (q, pyIndex q suffix) ∈ rankList suffix memory := rankList_mem_of hxmem
    rw [hemp] at hmm
    cases hmm
  obtain ⟨pr0, prs, hrl⟩ := List.exists_cons_of_ne_nil hrne
  obtain ⟨m, hm⟩ : ∃ m, maxKey (rankList suffix memory) = some m := by
    rw [hrl]
    exact ⟨_, rfl⟩
  obtain ⟨⟨prm, hprm, hprm1⟩, hmax⟩ := maxKey_spec hm
  refine ⟨m, hprm1 ▸ mem_keys_rankList hprm, ?_, optStep_rank hmiss hfull hv hm⟩
  intro q' hq'
  exact hmax (q', pyIndex q' suffix) (rankList_mem_of hq')

theorem opt_evicts_largest_identifier_witness :
    ∃ m, some m ∈ ([some 1] : List (Option Nat)) ∧
      (∀ q : Nat, some q ∈ ([some 1] : List (Option Nat)) → q ≤ m) ∧
      optStep [some 1] 0 [1] 0 =
        some (([some 1] : List (Option Nat)).set (pyIndex (some m) [some 1]) (some 0), 0 + 1) :=
  opt_evicts_largest_identifier [some 1] 0 [1] 0 (by decide) (by decide) (by decide)
    (fun q hq => by
      have hq1 : some q = some 1 := List.mem_singleton.mp hq
      have hq2 : q = 1 := by injection hq1
      subst hq2
      exact List.mem_singleton.mpr rfl)

/-- C7 counterexample: with capacity 0 (< 1) and the empty reference sequence,
both algorithms return the result tuple (0, capacity, 0) normally instead of
failing, so no invalid-configuration check runs before the sequence loop. -/
theorem cap_zero_empty_returns_tuple :
    counter_lru_page_replacement [] 0 = some (0, 0, 0) ∧
    opt_page_replacement [] 0 = some (0, 0, 0) :=
  ⟨rfl, rfl⟩

/-- C7 amended: with capacity < 1 neither algorithm checks its configuration
up front; on a non-empty sequence both fail with an uncaught runtime error
while processing the first reference (modelled as `none`), while on the empty
sequence both return the result tuple (0, capacity, 0) without any error. -/
theorem cap_lt_one_behavior (sequence : List Nat) (capacity : Nat) (hcap : capacity < 1) :
    (sequence = [] →
      counter_lru_page_replacement sequence capacity = some (0, capacity, 0) ∧
      opt_page_replacement sequence capacity = some (0, capacity, 0)) ∧
    (sequence ≠ [] →
      counter_lru_page_replacement sequence capacity = none ∧
      opt_page_replacement sequence capacity = none) := by
  have hc0 : capacity = 0 := by omega
  subst hc0
  constructor
  · rintro rfl
    exact ⟨rfl, rfl⟩
  · intro hne
    obtain ⟨c, rest, rfl⟩ := List.exists_cons_of_ne_nil hne
    constructor
    · have hstep : lruStep (lruInit 0) c = none := by
        simp [lruInit, lruStep, lruResident, oldestFrame]
      simp only [counter_lru_page_replacement, lruRun, hstep]
    · have hstep : optStep [] c rest 0 = none := by
        simp [optStep, findVictim, rankList, maxKey]
      simp only [opt_page_replacement, List.replicate, optRun, hstep]

theorem cap_lt_one_behavior_witness :
    (([5] : List Nat) = [] →
      counter_lru_page_replacement [5] 0 = some (0, 0, 0) ∧
      opt_page_replacement [5] 0 = some (0, 0, 0)) ∧
    (([5] : List Nat) ≠ [] →
      counter_lru_page_replacement [5] 0 = none ∧
      opt_page_replacement [5] 0 = none) :=
  cap_lt_one_behavior [5] 0 (by decide)

/-- C2 (code bug): on the sequence [0,1,3,2,3,2,3,1,0] with capacity 3 the
implemented OPT algorithm incurs 7 faults while the counter-based LRU incurs
only 5, violating the optimality lower bound because the eviction candidate is
chosen by largest page identifier instead of farthest next use. -/
theorem opt_exceeds_lru_on_concrete_input :
    opt_page_replacement [0, 1, 3, 2, 3, 2, 3, 1, 0] 3 = some (9, 3, 7) ∧
    counter_lru_page_replacement [0, 1, 3, 2, 3, 2, 3, 1, 0] 3 = some (9, 3, 5) := by
  constructor
  · rfl
  · rfl

theorem optStep_total_le (memory : List (Option Nat)) (page : Nat) (suffix : List Nat)
    (faults : Nat) (hne : memory ≠ []) :
    ∃ m₁ f₁, optStep memory page suffix faults = some (m₁, f₁) ∧ f₁ ≤ faults + 1 ∧
      m₁.length = memory.length := by
  by_cases h1 : some page ∈ memory
  · exact ⟨memory, faults, optStep_hit h1, by omega, rfl⟩
  by_cases h2 : (none : Option Nat) ∈ memory
  · exact ⟨_, _, optStep_free h1 h2, by omega, by simp⟩
  cases hv : findVictim suffix memory with
  | some victim => exact ⟨_, _, optStep_victim h1 h2 hv, by omega, by simp⟩
  | none =>
    obtain ⟨x, xs, hmem⟩ := List.exists_cons_of_ne_nil hne
    have hxmem : x ∈ memory := hmem ▸ List.mem_cons_self x xs
    obtain ⟨q, rfl, _⟩ := findVictim_none_sound hv x hxmem
    have hrne : rankList suffix memory ≠ [] := by
      intro hemp
      have hmm : (q, pyIndex q suffix) ∈ rankList suffix memory := rankList_mem_of hxmem
      rw [hemp] at hmm
      cases hmm
    obtain ⟨pr0, prs, hrl⟩ := List.exists_cons_of_ne_nil hrne
    obtain ⟨m, hm⟩ : ∃ m, maxKey (rankList suffix memory) = some m := by
      rw [hrl]
      exact ⟨_, rfl⟩
    exact ⟨_, _, optStep_rank h1 h2 hv hm, by omega, by simp⟩

theorem optRun_total_le :
    ∀ (seq : List Nat) (memory : List (Option Nat)) (faults : Nat), memory ≠ [] →
      ∃ m' f', optRun memory seq faults = some (m', f') ∧ f' ≤ faults + seq.length ∧
        m'.length = memory.length := by
  intro seq
  induction seq with
  | nil =>
    intro memory faults _
    exact ⟨memory, faults, rfl, by omega, rfl⟩
  | cons page rest ih =>
    intro memory faults hne
    obtain ⟨m₁, f₁, hstep, hf₁, hlen₁⟩ := optStep_total_le memory page rest faults hne
    have hne₁ : m₁ ≠ [] := by
      intro he
      rw [he] at hlen₁
      cases memory with
      | nil => exact hne rfl
      | cons y ys => simp at hlen₁
    obtain ⟨m', f', hrun, hle, hlen⟩ := ih m₁ f₁ hne₁
    refine ⟨m', f', ?_, by simp only [List.length_cons]; omega, by rw [hlen, hlen₁]⟩
    simp only [optRun, hstep]
    exact hrun

/-- C10: with capacity at least 1 both algorithms return a fault count that is
at most the length of the reference sequence: each processed reference
increments the fault counter at most once. -/
theorem fault_counts_le_sequence_length (sequence : List Nat) (capacity : Nat)
    (hcap : 1 ≤ capacity) :
    (∃ n, counter_lru_page_replacement sequence capacity =
        some (sequence.length, capacity, n) ∧ n ≤ sequence.length) ∧
    (∃ n, opt_page_replacement sequence capacity =
        some (sequence.length, capacity, n) ∧ n ≤ sequence.length) := by
  constructor
  · obtain ⟨st', hrun, _, hfold, _⟩ :=
      lruRun_abs hcap sequence (List.replicate capacity none) 0 0 [] (wfabs_init capacity)
    refine ⟨st'.faults, ?_, ?_⟩
    · simp only [counter_lru_page_replacement, lruInit, hrun]
    · rw [hfold]
      have hb := stack_faults_le capacity sequence [] 0
      omega
  · have hne : List.replicate capacity (none : Option Nat) ≠ [] := by
      intro he
      have hlen := congrArg List.length he
      simp at hlen
      omega
    obtain ⟨m', f', hrun, hle, _⟩ :=
      optRun_total_le sequence (List.replicate capacity none) 0 hne
    refine ⟨f', ?_, by omega⟩
    simp only [opt_page_replacement, hrun]

theorem fault_counts_le_sequence_length_witness :
    (∃ n, counter_lru_page_replacement [0, 1, 0, 1] 2 = some (4, 2, n) ∧ n ≤ 4) ∧
    (∃ n, opt_page_replacement [0, 1, 0, 1] 2 = some (4, 2, n) ∧ n ≤ 4) :=
  fault_counts_le_sequence_length [0, 1, 0, 1] 2 (by decide)

end VMSim
